import Mathlib

/-!
Verification of the two algorithmic cores of the video-pipeline repository:

* the word-segment grouping algorithm
  (`modules/chunking-module/src/services/transcription_loader_service.py`,
  method `_convert_word_segments_to_audio_segments`), and
* the metadata sanitization pipeline
  (`modules/transcribe-module/src/utils/metadata_utils.py`,
  function `sanitize_metadata`).

The Python code is shallowly embedded: dictionaries holding word items
become a structure of optional fields, Python floats are modelled as
rationals (only parse success or failure and the exact default constants
matter to the properties proved here), and code that can raise
(`float(...)` on an unparseable string) returns `Except String`.
Strings are modelled as lists of ASCII characters; the Python regex
character classes are modelled over ASCII.
-/

namespace VideoPipeline

/-- A value stored in a numeric field of a word-item dictionary: either a
value convertible by Python `float(...)` (modelled as a rational) or a
string on which `float` raises `ValueError`. -/
inductive PyNum where
  | num (q : ℚ)
  | badStr (s : String)
deriving DecidableEq

/-- One word-level segment dictionary, as consumed by
`_convert_word_segments_to_audio_segments`.  A `none` field models an
absent dictionary key.  `wtype` embeds the dictionary key named type,
which the grouping function never reads. -/
structure Word where
  wtype : Option String
  text : Option String
  content : Option String
  start_time : Option PyNum
  end_time : Option PyNum
  confidence : Option PyNum
deriving DecidableEq

/-- One audio-segment dictionary produced by the grouping function. -/
structure AudioSegment where
  start_time : ℚ
  end_time : ℚ
  text : String
  transcript : String
  confidence : ℚ
deriving DecidableEq

/-- Python `float(d.get(key, default))`: an absent key yields the default,
a parseable value yields that value, an unparseable string raises
`ValueError` (modelled as `Except.error`). -/
def pyFloat (v : Option PyNum) (d : ℚ) : Except String ℚ :=
  match v with
  | none => Except.ok d
  | some (PyNum.num q) => Except.ok q
  | some (PyNum.badStr s) => Except.error s

/-- Whether `float` succeeds on the field (true also when absent, since
the source supplies a numeric default to `.get`). -/
def numOk (v : Option PyNum) : Bool :=
  match v with
  | some (PyNum.badStr _) => false
  | _ => true

/-- Source line 186: `word.get('text', word.get('content', ''))`. -/
def tokenOf (w : Word) : String :=
  w.text.getD (w.content.getD "")

/-- Source line 190: `word_text.endswith(('.', '!', '?'))`.  All three
suffixes are single characters, so the check is equivalent to a test on
the last character. -/
def endsSentencePunct (s : String) : Bool :=
  match s.data.getLast? with
  | some c => c = '.' || c = '!' || c = '?'
  | none => false

/-- The sort key of line 175, `float(x.get('start_time', 0))`, evaluated
on the parseable fields only (`keyOk` below records parseability). -/
def keyVal (w : Word) : ℚ :=
  match w.start_time with
  | some (PyNum.num q) => q
  | _ => 0

/-- Whether the sort key of line 175 can be computed without raising. -/
def keyOk (w : Word) : Bool := numOk w.start_time

/-- Stable insertion of an element into a list sorted by key: the new
element goes after all existing elements with key less than or equal to
its own, which is the stability guarantee of Python sorted. -/
def insertByKey (k : Word → ℚ) (w : Word) : List Word → List Word
  | [] => [w]
  | x :: xs => if k x ≤ k w then x :: insertByKey k w xs else w :: x :: xs

/-- Stable sort by key (Python sorted is a stable sort; any stable sort
by the same key computes the same list, so it is modelled by stable
insertion sort). -/
def sortByKey (k : Word → ℚ) (ws : List Word) : List Word :=
  ws.foldl (fun acc w => insertByKey k w acc) []

/-- Source lines 174-177: `sorted(word_segments, key=lambda x:
float(x.get('start_time', 0)))` inside try/except - if the key raises on
any element the original order is kept. -/
def sortWords (ws : List Word) : List Word :=
  if ws.all keyOk then sortByKey keyVal ws else ws

/-- The closing condition of source line 190:
`len(current_segment) >= 10 or word_text.endswith(('.', '!', '?'))`,
evaluated after the word was appended. -/
def shouldClose (cur' : List Word) (w : Word) : Bool :=
  decide (10 ≤ cur'.length) || endsSentencePunct (tokenOf w)

/-- Source lines 184-205, restricted to the grouping of items: the loop
appends each word to `current_segment` and closes the group when the
group reaches 10 items or the word text ends with sentence punctuation.
(The source keeps a parallel `current_text` list; it always equals the
token list of `current_segment`, so only the word list is carried here.
The inner guard `if current_segment:` of line 191 is always true at that
point because a word was just appended.) -/
def groupLoop (cur : List Word) : List Word → List (List Word)
  | [] => if cur.isEmpty then [] else [cur]
  | w :: ws =>
      let cur' := cur ++ [w]
      if shouldClose cur' w then
        cur' :: groupLoop [] ws
      else
        groupLoop cur' ws

/-- The groups of word items the function emits segments from, in order:
the loop of lines 184-205 plus the trailing flush of lines 207-219. -/
def wordGroups (ws : List Word) : List (List Word) :=
  groupLoop [] (sortWords ws)

/-- Emission of one audio segment from a closed group, source lines
192-202 (and identically 209-218): `float` on the first item's
start_time and the last item's end_time, the space-join of the tokens,
and the arithmetic mean of the per-item confidences.  Any `float` on an
unparseable string propagates as an error, exactly as the uncaught
`ValueError` does in the source. -/
def mkSegment (g : List Word) : Except String AudioSegment :=
  match g with
  | [] => Except.error "empty segment"
  | w0 :: rest => do
      let st ← pyFloat w0.start_time 0
      let en ← pyFloat ((rest.getLast?).getD w0).end_time 0
      let confs ← (w0 :: rest).mapM (fun w => pyFloat w.confidence 1)
      let text := String.intercalate " " ((w0 :: rest).map tokenOf)
      Except.ok (AudioSegment.mk st en text text (confs.sum / ((w0 :: rest).length : ℚ)))

/-- The whole function `_convert_word_segments_to_audio_segments`
(source lines 160-222): empty input short-circuits to an empty list,
otherwise the (optionally sorted) items are grouped and one segment is
emitted per group, in order, stopping at the first `ValueError`. -/
def convert_word_segments_to_audio_segments (word_segments : List Word) :
    Except String (List AudioSegment) :=
  if word_segments.isEmpty then Except.ok []
  else (wordGroups word_segments).mapM mkSegment

/-- Whether the last item of a group carries text ending in sentence
punctuation. -/
def lastEndsPunct (g : List Word) : Bool :=
  match g.getLast? with
  | some w => endsSentencePunct (tokenOf w)
  | none => false

/-- All three numeric fields of the word item are absent or parseable. -/
def parseableNums (w : Word) : Bool :=
  numOk w.start_time && numOk w.end_time && numOk w.confidence

/-- Replace the type field of a word item, leaving every field the
grouping function reads untouched. -/
def setWType (t : Option String) : Word → Word
  | Word.mk _ tx c st en cf => Word.mk t tx c st en cf

/-! ### Metadata sanitization

The pipeline of `sanitize_metadata` (metadata_utils.py, lines 24-88) is
an ordered list of regular-expression substitutions applied to each
allow-listed value.  Each pattern of the source is embedded as a
left-to-right scanner over the character list with Python re.sub
semantics: leftmost non-overlapping matches, lookarounds reading the
original text, replaced text not rescanned within the same pass.  The
Python character classes are modelled over ASCII. -/

/-- Python regex class backslash-s over ASCII: space, tab, newline,
vertical tab, form feed, carriage return. -/
def isPySpace (c : Char) : Bool :=
  c.toNat = 32 || c.toNat = 9 || c.toNat = 10 || c.toNat = 11 || c.toNat = 12 || c.toNat = 13

/-- The class of pattern 5, `[\x00-\x1F\x7F\s]`. -/
def isCtrlOrSpace (c : Char) : Bool :=
  c.toNat ≤ 31 || c.toNat = 127 || isPySpace c

/-- The class `[A-Za-z]`. -/
def isAsciiAlpha (c : Char) : Bool :=
  (97 ≤ c.toNat && c.toNat ≤ 122) || (65 ≤ c.toNat && c.toNat ≤ 90)

/-- The class backslash-d over ASCII. -/
def isAsciiDigit (c : Char) : Bool := 48 ≤ c.toNat && c.toNat ≤ 57

/-- The class backslash-w over ASCII: letters, digits, underscore. -/
def isPyWordChar (c : Char) : Bool := isAsciiAlpha c || isAsciiDigit c || c = '_'

/-- The punctuation kept by pattern 9, `[^\w\s\-.,!?()\'\"&/:@]`. -/
def allowedPunct : List Char := ['-', '.', ',', '!', '?', '(', ')', '\'', '"', '&', '/', ':', '@']

/-- Membership in the full allowed class of pattern 9. -/
def inAllowedClass (c : Char) : Bool :=
  isPyWordChar c || isPySpace c || allowedPunct.contains c

/-- Split a list at the first occurrence of the character `t`, returning
the part before it and the part after it. -/
def findSplit (t : Char) : List Char → Option (List Char × List Char)
  | [] => none
  | c :: cs =>
      if c = t then some ([], cs)
      else
        match findSplit t cs with
        | some (b, r) => some (c :: b, r)
        | none => none

/-- Case-insensitive prefix test (ASCII lowering), for the IGNORECASE
patterns 1 and 2. -/
def ciPrefix : List Char → List Char → Bool
  | [], _ => true
  | _ :: _, [] => false
  | a :: as, b :: bs => a.toLower = b.toLower && ciPrefix as bs

/-- Drop everything through the first (case-insensitive) occurrence of
`lit`, the semantics of a lazy `.*?` followed by the literal; `none`
when the literal never occurs. -/
def dropThroughCI (lit : List Char) : List Char → Option (List Char)
  | [] => none
  | c :: cs =>
      if ciPrefix lit (c :: cs) then some ((c :: cs).drop lit.length)
      else dropThroughCI lit cs

/-- Patterns 1 and 2, for example `<script\b[^>]*>.*?</script>` with
IGNORECASE and DOTALL, replaced by the empty string.  The fuel argument
makes the scan structurally recursive; every recursive call strictly
shrinks the input, so fuel equal to the input length (as supplied by
`subScript` and `subStyle`) is never exhausted. -/
def subBlockF (tag close : List Char) : Nat → List Char → List Char
  | 0, s => s
  | _ + 1, [] => []
  | fuel + 1, c :: cs =>
      if c = '<' && ciPrefix tag cs then
        let afterTag := cs.drop tag.length
        let bOk := match afterTag with
          | [] => true
          | d :: _ => !isPyWordChar d
        if bOk then
          match findSplit '>' afterTag with
          | some (_, rest1) =>
              match dropThroughCI close rest1 with
              | some rest2 => subBlockF tag close fuel rest2
              | none => c :: subBlockF tag close fuel cs
          | none => c :: subBlockF tag close fuel cs
        else c :: subBlockF tag close fuel cs
      else c :: subBlockF tag close fuel cs

def subScript (s : List Char) : List Char :=
  subBlockF "script".data "</script>".data s.length s

def subStyle (s : List Char) : List Char :=
  subBlockF "style".data "</style>".data s.length s

/-- Pattern 3, `<!--.*?-->` with DOTALL, replaced by the empty string. -/
def subCommentsF : Nat → List Char → List Char
  | 0, s => s
  | _ + 1, [] => []
  | fuel + 1, c :: cs =>
      if ciPrefix ['<', '!', '-', '-'] (c :: cs) then
        match dropThroughCI ['-', '-', '>'] ((c :: cs).drop 4) with
        | some rest => subCommentsF fuel rest
        | none => c :: subCommentsF fuel cs
      else c :: subCommentsF fuel cs

def subComments (s : List Char) : List Char := subCommentsF s.length s

/-- Pattern 4, `<[^>]+>`, replaced by one space.  When no closing `>`
exists in the rest of the input no later match is possible either, so
the rest is returned unchanged. -/
def subTagsF : Nat → List Char → List Char
  | 0, s => s
  | _ + 1, [] => []
  | fuel + 1, c :: cs =>
      if c = '<' then
        match findSplit '>' cs with
        | some (body, rest) =>
            if body.isEmpty then c :: subTagsF fuel cs
            else ' ' :: subTagsF fuel rest
        | none => c :: cs
      else c :: subTagsF fuel cs

def subTags (s : List Char) : List Char := subTagsF s.length s

/-- Replacement of every maximal nonempty run of characters satisfying
`p` by `rep`: the shape of patterns 5, 9 and 17.  The flag records
whether the scanner is inside a run whose replacement has already been
emitted. -/
def replaceRunsAux (p : Char → Bool) (rep : List Char) : Bool → List Char → List Char
  | _, [] => []
  | inRun, c :: cs =>
      if p c then (if inRun then [] else rep) ++ replaceRunsAux p rep true cs
      else c :: replaceRunsAux p rep false cs

def replaceRuns (p : Char → Bool) (rep : List Char) (s : List Char) : List Char :=
  replaceRunsAux p rep false s

def prevIsDigit : Option Char → Bool
  | some c => isAsciiDigit c
  | none => false

/-- The lookahead `(?=\d{2}\b)` of pattern 6: two digits followed by a
non-word character or the end of the string. -/
def lookTwoDigitsBoundary : List Char → Bool
  | d1 :: d2 :: rest =>
      isAsciiDigit d1 && isAsciiDigit d2 &&
        (match rest with | [] => true | e :: _ => !isPyWordChar e)
  | _ => false

/-- Pattern 6, `(?<=\d):(?=\d{2}\b)` replaced by TIMECOLON.  The scanner
carries the previous original character for the lookbehind. -/
def subTimeColon : Option Char → List Char → List Char
  | _, [] => []
  | prev, c :: cs =>
      if c = ':' && prevIsDigit prev && lookTwoDigitsBoundary cs then
        'T' :: 'I' :: 'M' :: 'E' :: 'C' :: 'O' :: 'L' :: 'O' :: 'N' :: subTimeColon (some ':') cs
      else c :: subTimeColon (some c) cs

def prevIsAlpha : Option Char → Bool
  | some c => isAsciiAlpha c
  | none => false

/-- Pattern 7, `(?<=[A-Za-z])/(?=[A-Za-z])` replaced by SLASH. -/
def subCatSlash : Option Char → List Char → List Char
  | _, [] => []
  | prev, c :: cs =>
      if c = '/' && prevIsAlpha prev &&
          (match cs with | d :: _ => isAsciiAlpha d | [] => false) then
        'S' :: 'L' :: 'A' :: 'S' :: 'H' :: subCatSlash (some '/') cs
      else c :: subCatSlash (some c) cs

/-- Pattern 8, `&(?=\s|$)` replaced by AMPERSAND. -/
def subStandaloneAmp : List Char → List Char
  | [] => []
  | c :: cs =>
      if c = '&' && (match cs with | [] => true | d :: _ => isPySpace d) then
        'A' :: 'M' :: 'P' :: 'E' :: 'R' :: 'S' :: 'A' :: 'N' :: 'D' :: subStandaloneAmp cs
      else c :: subStandaloneAmp cs

/-- Pattern 10, the literal TIMECOLON restored to a colon. -/
def subTIMECOLON : List Char → List Char
  | 'T' :: 'I' :: 'M' :: 'E' :: 'C' :: 'O' :: 'L' :: 'O' :: 'N' :: rest => ':' :: subTIMECOLON rest
  | c :: cs => c :: subTIMECOLON cs
  | [] => []

/-- Pattern 11, the literal SLASH restored to a slash. -/
def subSLASH : List Char → List Char
  | 'S' :: 'L' :: 'A' :: 'S' :: 'H' :: rest => '/' :: subSLASH rest
  | c :: cs => c :: subSLASH cs
  | [] => []

/-- Pattern 12, the literal AMPERSAND restored to an ampersand. -/
def subAMPERSAND : List Char → List Char
  | 'A' :: 'M' :: 'P' :: 'E' :: 'R' :: 'S' :: 'A' :: 'N' :: 'D' :: rest => '&' :: subAMPERSAND rest
  | c :: cs => c :: subAMPERSAND cs
  | [] => []

/-- Whether a maximal whitespace run starting here is followed by the
character `t` (used for the lookaheads of patterns 13, 15 and 16). -/
def wsRunThen (t : Char) : List Char → Bool
  | [] => false
  | c :: cs => if isPySpace c then wsRunThen t cs else c = t

/-- Whether a maximal whitespace run starting here is followed by `M`
and a word boundary (the lookahead `(?=M\b)` of pattern 14). -/
def wsRunThenMBoundary : List Char → Bool
  | [] => false
  | c :: cs =>
      if isPySpace c then wsRunThenMBoundary cs
      else c = 'M' && (match cs with | [] => true | d :: _ => !isPyWordChar d)

/-- Pattern 13, `(?<=\d)\s+(?=:)` deleted: a whitespace run is removed
when the character before the run is a digit and the character after it
is a colon.  The first flag records whether the previous original
character was a digit, the second whether the scanner is inside a run
being deleted. -/
def subTimeSpace : Bool → Bool → List Char → List Char
  | _, _, [] => []
  | prevDigit, inDel, c :: cs =>
      if isPySpace c then
        let del := inDel || (prevDigit && wsRunThen ':' (c :: cs))
        (if del then [] else [c]) ++ subTimeSpace false del cs
      else c :: subTimeSpace (isAsciiDigit c) false cs

/-- Pattern 14, `(?<=[AP])\s+(?=M\b)` deleted, same run discipline as
pattern 13. -/
def subApmSpace : Bool → Bool → List Char → List Char
  | _, _, [] => []
  | prevAP, inDel, c :: cs =>
      if isPySpace c then
        let del := inDel || (prevAP && wsRunThenMBoundary (c :: cs))
        (if del then [] else [c]) ++ subApmSpace false del cs
      else c :: subApmSpace (c = 'A' || c = 'P') false cs

/-- Patterns 15 and 16, `\s*&\s*` to space-ampersand-space and `\s*/\s*`
to a bare slash: whitespace adjacent to the target character is consumed
and the replacement is emitted at the target; the flag skips the
whitespace already consumed by a previous match's trailing `\s*`. -/
def subAround (t : Char) (rep : List Char) : Bool → List Char → List Char
  | _, [] => []
  | skipWs, c :: cs =>
      if c = t then rep ++ subAround t rep true cs
      else if isPySpace c then
        if skipWs then subAround t rep true cs
        else if wsRunThen t (c :: cs) then subAround t rep false cs
        else c :: subAround t rep false cs
      else c :: subAround t rep false cs

/-- Python `str.strip()` on line 78, over the ASCII whitespace model. -/
def stripChars (s : List Char) : List Char :=
  ((s.dropWhile isPySpace).reverse.dropWhile isPySpace).reverse

/-- The ordered substitution pipeline of lines 30-58 applied to one
value, followed by the strip of line 78. -/
def sanitizeValue (v : List Char) : List Char :=
  let s1 := subScript v
  let s2 := subStyle s1
  let s3 := subComments s2
  let s4 := subTags s3
  let s5 := replaceRuns isCtrlOrSpace [' '] s4
  let s6 := subTimeColon none s5
  let s7 := subCatSlash none s6
  let s8 := subStandaloneAmp s7
  let s9 := replaceRuns (fun c => !inAllowedClass c) [' '] s8
  let s10 := subTIMECOLON s9
  let s11 := subSLASH s10
  let s12 := subAMPERSAND s11
  let s13 := subTimeSpace false false s12
  let s14 := subApmSpace false false s13
  let s15 := subAround '&' [' ', '&', ' '] false s14
  let s16 := subAround '/' ['/'] false s15
  let s17 := replaceRuns isPySpace [' '] s16
  stripChars s17

/-- The pipeline prefix up to and including pattern 16 (named so that
proofs can peel the last two stages off `sanitizeValue` without
re-spelling the whole term). -/
def preSpaceCollapse (v : List Char) : List Char :=
  subAround '/' ['/'] false
    (subAround '&' [' ', '&', ' '] false
      (subApmSpace false false
        (subTimeSpace false false
          (subAMPERSAND (subSLASH (subTIMECOLON
            (replaceRuns (fun c => !inAllowedClass c) [' ']
              (subStandaloneAmp (subCatSlash none (subTimeColon none
                (replaceRuns isCtrlOrSpace [' ']
                  (subTags (subComments (subStyle (subScript v)))))))))))))))

/-- The pipeline through pattern 17, one strip short of `sanitizeValue`. -/
def preStripped (v : List Char) : List Char :=
  replaceRuns isPySpace [' '] (preSpaceCollapse v)

/-- The truncation of lines 81-82: values longer than 256 characters are
cut to their first 253 characters with three dots appended. -/
def truncLong (s : List Char) : List Char :=
  if 256 < s.length then s.take 253 ++ ['.', '.', '.'] else s

/-- Line 61: the allow-listed metadata keys. -/
def allowed_keys : List String := ["speaker", "title", "track", "day"]

/-- The function `sanitize_metadata` (lines 5-88) over string-valued
metadata, the dictionary modelled as an association list in insertion
order: keys outside the allow list are dropped, each remaining value is
sanitized, truncated when over 256 characters, and kept only when the
result is non-empty. -/
def sanitize_metadata (metadata : List (String × List Char)) : List (String × List Char) :=
  if metadata.isEmpty then []
  else
    metadata.filterMap (fun kv =>
      if allowed_keys.contains kv.1 then
        if (truncLong (sanitizeValue kv.2)).isEmpty then none
        else some (kv.1, truncLong (sanitizeValue kv.2))
      else none)

/-- The character set every sanitized output character belongs to: word
characters, the single space, and the allowed punctuation. -/
def finalCharOK (c : Char) : Bool :=
  isPyWordChar c || c = ' ' || allowedPunct.contains c

/-- Example word items used by concrete witnesses. -/
def exWordHi : Word := Word.mk none (some "hi") none none none none

def exWordDot : Word := Word.mk none (some "a.") none none none none

def exWordB : Word := Word.mk none (some "b") none none none none

def exWordBadStart : Word :=
  Word.mk none (some "hi") none (some (PyNum.badStr "abc")) none none

def exWordOther : Word := Word.mk (some "other") (some "hello") none none none none

/-! ### Small helpers for the Except monad -/

theorem exceptBindOk {ε α β : Type} (a : α) (f : α → Except ε β) :
    ((Except.ok a : Except ε α) >>= f) = f a := rfl

theorem exceptBindError {ε α β : Type} (e : ε) (f : α → Except ε β) :
    ((Except.error e : Except ε α) >>= f) = Except.error e := rfl

theorem exceptPureEq {ε α : Type} (a : α) : (pure a : Except ε α) = Except.ok a := rfl

theorem exceptIsOkExists {ε α : Type} (x : Except ε α) (h : x.isOk = true) :
    ∃ b, x = Except.ok b := by
  cases x with
  | ok b => exact ⟨b, rfl⟩
  | error e => exact absurd h (by simp [Except.isOk, Except.toBool])

/-! ### Lemmas about the grouping loop -/

theorem groupLoop_flatten (l : List Word) : ∀ cur, (groupLoop cur l).flatten = cur ++ l := by
  induction l with
  | nil =>
      intro cur
      by_cases h : cur.isEmpty
      · simp [groupLoop, h, List.isEmpty_iff.mp h]
      · simp [groupLoop, h]
  | cons w ws ih =>
      intro cur
      by_cases h : shouldClose (cur ++ [w]) w = true
      · simp [groupLoop, h, ih]
      · simp [groupLoop, h, ih]

theorem groupLoop_mem_ne_nil (l : List Word) :
    ∀ cur, ∀ g ∈ groupLoop cur l, g ≠ [] := by
  induction l with
  | nil =>
      intro cur g hg
      by_cases h : cur.isEmpty
      · simp [groupLoop, h] at hg
      · simp [groupLoop, h] at hg
        subst hg
        exact fun hc => h (by simp [hc])
  | cons w ws ih =>
      intro cur g hg
      by_cases h : shouldClose (cur ++ [w]) w = true
      · simp [groupLoop, h] at hg
        rcases hg with hg | hg
        · subst hg; simp
        · exact ih [] g hg
      · simp [groupLoop, h] at hg
        exact ih (cur ++ [w]) g hg

theorem groupLoop_mem_length (l : List Word) :
    ∀ cur, cur.length ≤ 9 → ∀ g ∈ groupLoop cur l, g.length ≤ 10 := by
  induction l with
  | nil =>
      intro cur hc g hg
      by_cases h : cur.isEmpty
      · simp [groupLoop, h] at hg
      · simp [groupLoop, h] at hg
        subst hg; omega
  | cons w ws ih =>
      intro cur hc g hg
      by_cases h : shouldClose (cur ++ [w]) w = true
      · simp [groupLoop, h] at hg
        rcases hg with hg | hg
        · subst hg; simp; omega
        · exact ih [] (by simp) g hg
      · simp [groupLoop, h] at hg
        simp only [shouldClose, Bool.or_eq_true, decide_eq_true_eq, not_or] at h
        have hlen : (cur ++ [w]).length ≤ 9 := by
          have := h.1
          simp only [List.length_append, List.length_cons, List.length_nil] at this ⊢
          omega
        exact ih (cur ++ [w]) hlen g hg

theorem groupLoop_dropLast_boundary (l : List Word) :
    ∀ cur, cur.length ≤ 9 →
      ∀ g ∈ (groupLoop cur l).dropLast, g.length = 10 ∨ lastEndsPunct g = true := by
  induction l with
  | nil =>
      intro cur _ g hg
      by_cases h : cur.isEmpty
      · simp [groupLoop, h] at hg
      · simp [groupLoop, h] at hg
  | cons w ws ih =>
      intro cur hc g hg
      by_cases h : shouldClose (cur ++ [w]) w = true
      · rw [groupLoop] at hg
        simp only [h, if_pos] at hg
        rcases hrest : groupLoop [] ws with _ | ⟨r, rs⟩
        · rw [hrest] at hg; simp at hg
        · rw [hrest, List.dropLast_cons₂] at hg
          rcases List.mem_cons.mp hg with hg | hg
          · subst hg
            rcases Bool.or_eq_true_iff.mp h with h10 | hpunct
            · left
              have h10' := of_decide_eq_true h10
              have hle : (cur ++ [w]).length ≤ 10 := by
                simp only [List.length_append, List.length_cons, List.length_nil]
                omega
              omega
            · right
              simp [lastEndsPunct, List.getLast?_concat, hpunct]
          · have hih := ih [] (by simp)
            rw [hrest] at hih
            exact hih g hg
      · rw [groupLoop] at hg
        simp only [h, if_neg, Bool.not_eq_true] at hg
        simp only [shouldClose, Bool.or_eq_true, decide_eq_true_eq, not_or] at h
        have hlen : (cur ++ [w]).length ≤ 9 := by
          have := h.1
          simp only [List.length_append, List.length_cons, List.length_nil] at this ⊢
          omega
        exact ih (cur ++ [w]) hlen g hg

/-! ### Lemmas about the stable sort -/

theorem insertByKey_perm (k : Word → ℚ) (w : Word) (l : List Word) :
    (insertByKey k w l).Perm (w :: l) := by
  induction l with
  | nil => exact List.Perm.refl _
  | cons x xs ih =>
      rw [insertByKey]
      by_cases h : k x ≤ k w
      · rw [if_pos h]
        exact (ih.cons x).trans (List.Perm.swap w x xs)
      · rw [if_neg h]

theorem foldl_insertByKey_perm (k : Word → ℚ) (ws : List Word) :
    ∀ acc, (ws.foldl (fun acc w => insertByKey k w acc) acc).Perm (acc ++ ws) := by
  induction ws with
  | nil => intro acc; simp
  | cons w ws ih =>
      intro acc
      rw [List.foldl_cons]
      have h1 := ih (insertByKey k w acc)
      have h2 : (insertByKey k w acc ++ ws).Perm ((w :: acc) ++ ws) :=
        (insertByKey_perm k w acc).append_right ws
      have h3 : ((w :: acc) ++ ws).Perm (acc ++ w :: ws) := List.perm_middle.symm
      exact (h1.trans h2).trans h3

theorem sortByKey_perm (k : Word → ℚ) (ws : List Word) : (sortByKey k ws).Perm ws := by
  simpa using foldl_insertByKey_perm k ws []

theorem sortWords_perm (ws : List Word) : (sortWords ws).Perm ws := by
  unfold sortWords
  by_cases h : ws.all keyOk
  · simp [h, sortByKey_perm]
  · simp [h]

theorem wordGroups_flatten (ws : List Word) : (wordGroups ws).flatten = sortWords ws := by
  simpa using groupLoop_flatten (sortWords ws) []

/-! ### Lemmas about segment emission -/

theorem pyFloat_ok_of_numOk (v : Option PyNum) (d : ℚ) (h : numOk v = true) :
    ∃ q, pyFloat v d = Except.ok q := by
  cases v with
  | none => exact ⟨d, rfl⟩
  | some n =>
      cases n with
      | num q => exact ⟨q, rfl⟩
      | badStr s => simp [numOk] at h

theorem getLastD_mem (w0 : Word) (rest : List Word) :
    (rest.getLast?).getD w0 ∈ w0 :: rest := by
  cases hr : rest.getLast? with
  | none => simp
  | some x =>
      simp only [Option.getD_some]
      exact List.mem_cons_of_mem w0 (List.mem_of_mem_getLast? (by rw [hr]; rfl))

theorem mapM_except_isOk {α β : Type} (f : α → Except String β) (l : List α)
    (h : ∀ a ∈ l, (f a).isOk = true) : (l.mapM f).isOk = true := by
  induction l with
  | nil => rfl
  | cons a l ih =>
      obtain ⟨b, hb⟩ := exceptIsOkExists (f a) (h a (List.mem_cons_self a l))
      obtain ⟨bs, hbs⟩ :=
        exceptIsOkExists (l.mapM f) (ih (fun x hx => h x (List.mem_cons_of_mem a hx)))
      rw [List.mapM_cons, hb, exceptBindOk, hbs, exceptBindOk]
      rfl

theorem mapM_except_length {α β : Type} (f : α → Except String β) (l : List α) :
    ∀ bs, l.mapM f = Except.ok bs → bs.length = l.length := by
  induction l with
  | nil =>
      intro bs h
      have h' : Except.ok ([] : List β) = Except.ok bs := h
      cases h'; rfl
  | cons a l ih =>
      intro bs h
      rw [List.mapM_cons] at h
      cases hfa : f a with
      | error e =>
          rw [hfa, exceptBindError] at h
          exact absurd h (by simp)
      | ok b =>
          rw [hfa, exceptBindOk] at h
          cases hml : l.mapM f with
          | error e =>
              rw [hml, exceptBindError] at h
              exact absurd h (by simp)
          | ok bs' =>
              rw [hml, exceptBindOk, exceptPureEq] at h
              cases h
              simp [ih bs' hml]

theorem mkSegment_isOk (g : List Word) (hne : g ≠ [])
    (h : ∀ w ∈ g, parseableNums w = true) : (mkSegment g).isOk = true := by
  cases g with
  | nil => exact absurd rfl hne
  | cons w0 rest =>
      have h0 := h w0 (List.mem_cons_self w0 rest)
      rw [parseableNums, Bool.and_eq_true, Bool.and_eq_true] at h0
      obtain ⟨q1, h1⟩ := pyFloat_ok_of_numOk w0.start_time 0 h0.1.1
      have hlast := h ((rest.getLast?).getD w0) (getLastD_mem w0 rest)
      rw [parseableNums, Bool.and_eq_true, Bool.and_eq_true] at hlast
      obtain ⟨q2, h2⟩ := pyFloat_ok_of_numOk ((rest.getLast?).getD w0).end_time 0 hlast.1.2
      obtain ⟨qs, h3⟩ :=
        exceptIsOkExists ((w0 :: rest).mapM (fun w => pyFloat w.confidence 1))
          (mapM_except_isOk _ _ (fun w hw => by
            have hw' := h w hw
            rw [parseableNums, Bool.and_eq_true, Bool.and_eq_true] at hw'
            obtain ⟨q, hq⟩ := pyFloat_ok_of_numOk w.confidence 1 hw'.2
            rw [hq]; rfl))
      show (mkSegment (w0 :: rest)).isOk = true
      simp only [mkSegment]
      rw [h1, exceptBindOk, h2, exceptBindOk, h3, exceptBindOk]
      rfl

theorem mkSegment_ok_transcript (g : List Word) (seg : AudioSegment)
    (h : mkSegment g = Except.ok seg) :
    seg.transcript = String.intercalate " " (g.map tokenOf) := by
  cases g with
  | nil => exact absurd h (by simp [mkSegment])
  | cons w0 rest =>
      simp only [mkSegment] at h
      cases h1 : pyFloat w0.start_time 0 with
      | error e =>
          rw [h1, exceptBindError] at h
          exact absurd h (by simp)
      | ok q1 =>
          rw [h1, exceptBindOk] at h
          cases h2 : pyFloat ((rest.getLast?).getD w0).end_time 0 with
          | error e =>
              rw [h2, exceptBindError] at h
              exact absurd h (by simp)
          | ok q2 =>
              rw [h2, exceptBindOk] at h
              cases h3 : (w0 :: rest).mapM (fun w => pyFloat w.confidence 1) with
              | error e =>
                  rw [h3, exceptBindError] at h
                  exact absurd h (by simp)
              | ok qs =>
                  rw [h3, exceptBindOk] at h
                  cases h
                  rfl

theorem convert_isOk_of_parseable (ws : List Word)
    (h : ∀ w ∈ ws, parseableNums w = true) :
    (convert_word_segments_to_audio_segments ws).isOk = true := by
  unfold convert_word_segments_to_audio_segments
  by_cases he : ws.isEmpty = true
  · rw [if_pos he]; rfl
  · rw [if_neg he]
    apply mapM_except_isOk
    intro g hg
    apply mkSegment_isOk g (groupLoop_mem_ne_nil (sortWords ws) [] g hg)
    intro w hw
    apply h
    have hmem : w ∈ (wordGroups ws).flatten := List.mem_flatten.mpr ⟨g, hg, hw⟩
    rw [wordGroups_flatten] at hmem
    exact (sortWords_perm ws).mem_iff.mp hmem

/-! ### The grouper ignores the word-item type field -/

theorem tokenOf_setWType (t : Option String) (w : Word) :
    tokenOf (setWType t w) = tokenOf w := by
  cases w; rfl

theorem keyVal_setWType (t : Option String) (w : Word) :
    keyVal (setWType t w) = keyVal w := by
  cases w; rfl

theorem keyOk_setWType (t : Option String) (w : Word) :
    keyOk (setWType t w) = keyOk w := by
  cases w; rfl

theorem start_time_setWType (t : Option String) (w : Word) :
    (setWType t w).start_time = w.start_time := by
  cases w; rfl

theorem end_time_setWType (t : Option String) (w : Word) :
    (setWType t w).end_time = w.end_time := by
  cases w; rfl

theorem confidence_setWType (t : Option String) (w : Word) :
    (setWType t w).confidence = w.confidence := by
  cases w; rfl

theorem isEmpty_map_setWType (t : Option String) (l : List Word) :
    (l.map (setWType t)).isEmpty = l.isEmpty := by
  cases l <;> rfl

theorem insertByKey_map_setWType (t : Option String) (w : Word) (l : List Word) :
    insertByKey keyVal (setWType t w) (l.map (setWType t)) =
      (insertByKey keyVal w l).map (setWType t) := by
  induction l with
  | nil => rfl
  | cons x xs ih =>
      simp only [List.map_cons, insertByKey, keyVal_setWType]
      by_cases h : keyVal x ≤ keyVal w
      · simp only [if_pos h, List.map_cons, ih]
      · simp only [if_neg h, List.map_cons]

theorem foldl_insertByKey_map_setWType (t : Option String) (ws : List Word) :
    ∀ acc,
      (ws.map (setWType t)).foldl (fun acc w => insertByKey keyVal w acc)
          (acc.map (setWType t)) =
        (ws.foldl (fun acc w => insertByKey keyVal w acc) acc).map (setWType t) := by
  induction ws with
  | nil => intro acc; rfl
  | cons w ws ih =>
      intro acc
      rw [List.map_cons, List.foldl_cons, List.foldl_cons, insertByKey_map_setWType]
      exact ih _

theorem sortWords_map_setWType (t : Option String) (ws : List Word) :
    sortWords (ws.map (setWType t)) = (sortWords ws).map (setWType t) := by
  unfold sortWords
  have hall : (ws.map (setWType t)).all keyOk = ws.all keyOk := by
    rw [List.all_map]
    have hco : keyOk ∘ setWType t = keyOk := funext fun w => keyOk_setWType t w
    rw [hco]
  rw [hall]
  by_cases h : ws.all keyOk = true
  · rw [if_pos h, if_pos h]
    unfold sortByKey
    have := foldl_insertByKey_map_setWType t ws []
    simpa using this
  · rw [if_neg h, if_neg h]

theorem groupLoop_map_setWType (t : Option String) (l : List Word) :
    ∀ cur,
      groupLoop (cur.map (setWType t)) (l.map (setWType t)) =
        (groupLoop cur l).map (List.map (setWType t)) := by
  induction l with
  | nil =>
      intro cur
      simp only [List.map_nil, groupLoop, isEmpty_map_setWType]
      by_cases h : cur.isEmpty = true
      · rw [if_pos h, if_pos h]; rfl
      · rw [if_neg h, if_neg h]; rfl
  | cons w ws ih =>
      intro cur
      simp only [List.map_cons, groupLoop]
      have happ : cur.map (setWType t) ++ [setWType t w] = (cur ++ [w]).map (setWType t) := by
        simp
      rw [happ]
      have hcond : shouldClose ((cur ++ [w]).map (setWType t)) (setWType t w) =
          shouldClose (cur ++ [w]) w := by
        simp [shouldClose, tokenOf_setWType, List.length_map]
      rw [hcond]
      by_cases h : shouldClose (cur ++ [w]) w = true
      · rw [if_pos h, if_pos h, List.map_cons]
        have h0 := ih []
        simp only [List.map_nil] at h0
        rw [h0]
      · rw [if_neg h, if_neg h]
        exact ih (cur ++ [w])

theorem getLastD_map_setWType (t : Option String) (w0 : Word) (rest : List Word) :
    ((rest.map (setWType t)).getLast?).getD (setWType t w0) =
      setWType t ((rest.getLast?).getD w0) := by
  rw [List.getLast?_map]
  cases rest.getLast? <;> rfl

theorem mapM_except_map {α β γ : Type} (f : α → β) (g : β → Except String γ)
    (l : List α) : (l.map f).mapM g = l.mapM (fun a => g (f a)) := by
  induction l with
  | nil => rfl
  | cons a l ih => rw [List.map_cons, List.mapM_cons, List.mapM_cons, ih]

theorem mkSegment_map_setWType (t : Option String) (g : List Word) :
    mkSegment (g.map (setWType t)) = mkSegment g := by
  cases g with
  | nil => rfl
  | cons w0 rest =>
      simp only [List.map_cons, mkSegment]
      rw [start_time_setWType, getLastD_map_setWType, end_time_setWType]
      have hconfs : (setWType t w0 :: rest.map (setWType t)).mapM
          (fun w => pyFloat w.confidence 1) =
          (w0 :: rest).mapM (fun w => pyFloat w.confidence 1) := by
        rw [show setWType t w0 :: rest.map (setWType t) = (w0 :: rest).map (setWType t) from rfl]
        rw [mapM_except_map]
        have hfun : (fun w => pyFloat (setWType t w).confidence 1) =
            (fun w => pyFloat w.confidence 1) := by
          funext w; rw [confidence_setWType]
        rw [hfun]
      rw [hconfs]
      have hfun : tokenOf ∘ setWType t = tokenOf := funext fun w => tokenOf_setWType t w
      simp only [tokenOf_setWType, List.map_map, hfun, List.length_cons, List.length_map]

theorem wordGroups_map_setWType (t : Option String) (ws : List Word) :
    wordGroups (ws.map (setWType t)) = (wordGroups ws).map (List.map (setWType t)) := by
  unfold wordGroups
  rw [sortWords_map_setWType]
  have := groupLoop_map_setWType t (sortWords ws) []
  simpa using this

/-! ### Claim theorems about the grouping function -/

/-- C1: for every non-empty input sequence, the grouping produces a
non-empty list of groups whose concatenation is exactly the ordering
actually used (the optionally sorted input); that ordering is a
permutation of the input, so every item appears in exactly one group,
none dropped or duplicated, with order preserved; when segment emission
succeeds the segments correspond one to one to the groups and the
returned sequence is non-empty. -/
theorem claim_C1_grouping_partition (ws : List Word) (h : ws ≠ []) :
    wordGroups ws ≠ [] ∧
    (wordGroups ws).flatten = sortWords ws ∧
    (sortWords ws).Perm ws ∧
    ∀ segs, convert_word_segments_to_audio_segments ws = Except.ok segs →
      segs.length = (wordGroups ws).length ∧ segs ≠ [] := by
  have hflat : (wordGroups ws).flatten = sortWords ws := wordGroups_flatten ws
  have hperm : (sortWords ws).Perm ws := sortWords_perm ws
  have hsne : sortWords ws ≠ [] := by
    intro hn
    exact h ((hn ▸ hperm).symm.eq_nil)
  have hne : wordGroups ws ≠ [] := by
    intro hn
    rw [hn] at hflat
    exact hsne hflat.symm
  refine ⟨hne, hflat, hperm, ?_⟩
  intro segs hsegs
  unfold convert_word_segments_to_audio_segments at hsegs
  have hemp : ¬ ws.isEmpty = true := by
    intro hb
    exact h (List.isEmpty_iff.mp hb)
  rw [if_neg hemp] at hsegs
  have hlen := mapM_except_length mkSegment (wordGroups ws) segs hsegs
  refine ⟨hlen, ?_⟩
  intro hnil
  rw [hnil] at hlen
  exact hne (List.length_eq_zero.mp hlen.symm)

theorem claim_C1_witness :
    wordGroups [exWordHi] ≠ [] ∧
    (wordGroups [exWordHi]).flatten = sortWords [exWordHi] ∧
    (sortWords [exWordHi]).Perm [exWordHi] ∧
    ∀ segs, convert_word_segments_to_audio_segments [exWordHi] = Except.ok segs →
      segs.length = (wordGroups [exWordHi]).length ∧ segs ≠ [] :=
  claim_C1_grouping_partition [exWordHi] (by decide)

/-- C2 counterexample: a word item whose start_time field holds the
unparseable string abc is tolerated by the sort step (original order is
kept) but makes segment emission raise ValueError - the embedded
function returns an error rather than substituting 0.0, so the function
is not total over malformed input as the claim states. -/
theorem claim_C2_counterexample :
    convert_word_segments_to_audio_segments [exWordBadStart] = Except.error "abc" := rfl

/-- C2 amended: default substitution happens only for absent fields
(0.0 for times, 1.0 for confidence, as the concrete conjunct shows); the
function returns normally whenever every present numeric field is
parseable, and raises ValueError at segment emission otherwise. -/
theorem claim_C2_amended (ws : List Word) (h : ∀ w ∈ ws, parseableNums w = true) :
    (convert_word_segments_to_audio_segments ws).isOk = true ∧
    convert_word_segments_to_audio_segments [exWordHi] =
      Except.ok [AudioSegment.mk 0 0 "hi" "hi" 1] := by
  refine ⟨convert_isOk_of_parseable ws h, ?_⟩
  simp [convert_word_segments_to_audio_segments, wordGroups, sortWords, sortByKey,
        keyOk, numOk, exWordHi, insertByKey, groupLoop, shouldClose,
        endsSentencePunct, tokenOf, mkSegment, pyFloat, List.mapM, List.mapM.loop,
        String.intercalate, String.intercalate.go, Except.instMonad, Except.bind,
        Except.pure]

theorem claim_C2_witness :
    (convert_word_segments_to_audio_segments [exWordHi]).isOk = true ∧
    convert_word_segments_to_audio_segments [exWordHi] =
      Except.ok [AudioSegment.mk 0 0 "hi" "hi" 1] :=
  claim_C2_amended [exWordHi] (by decide)

/-- C3: every group other than the last one was closed by the loop
condition, so it has exactly 10 items or its last item's token ends in
sentence punctuation. -/
theorem claim_C3_nonfinal_boundary (ws : List Word) :
    ∀ g ∈ (wordGroups ws).dropLast, g.length = 10 ∨ lastEndsPunct g = true :=
  groupLoop_dropLast_boundary (sortWords ws) [] (by simp)

theorem claim_C3_witness :
    [exWordDot].length = 10 ∨ lastEndsPunct [exWordDot] = true :=
  claim_C3_nonfinal_boundary [exWordDot, exWordHi] [exWordDot] (by decide)

/-- C4: no group ever holds more than 10 word items, hence no segment
transcript joins more than 10 tokens. -/
theorem claim_C4_group_size (ws : List Word) :
    ∀ g ∈ wordGroups ws, g.length ≤ 10 ∧ (g.map tokenOf).length ≤ 10 := by
  intro g hg
  have hl := groupLoop_mem_length (sortWords ws) [] (by simp) g hg
  exact ⟨hl, by simpa using hl⟩

theorem claim_C4_witness :
    [exWordHi].length ≤ 10 ∧ ([exWordHi].map tokenOf).length ≤ 10 :=
  claim_C4_group_size [exWordHi] [exWordHi] (by decide)

/-- C8 counterexample: a word item whose type field is the string other
(neither pronunciation nor punctuation) is not ignored - it forms a
group and its text appears as the transcript of the emitted segment,
contradicting the claim that such items contribute nothing. -/
theorem claim_C8_counterexample :
    wordGroups [exWordOther] = [[exWordOther]] ∧
    convert_word_segments_to_audio_segments [exWordOther] =
      Except.ok [AudioSegment.mk 0 0 "hello" "hello" 1] := by
  refine ⟨by decide, ?_⟩
  simp [convert_word_segments_to_audio_segments, wordGroups, sortWords, sortByKey,
        keyOk, numOk, exWordOther, insertByKey, groupLoop, shouldClose,
        endsSentencePunct, tokenOf, mkSegment, pyFloat, List.mapM, List.mapM.loop,
        String.intercalate, String.intercalate.go, Except.instMonad, Except.bind,
        Except.pure]

/-- C8 amended: the grouping function never reads the word-item type
field - its output is invariant under arbitrary rewrites of that field,
and (by C1) every item contributes to a segment whatever its kind.  The
pronunciation and punctuation filter the spec describes lives upstream
in the transcribe module, not in this function. -/
theorem claim_C8_amended (ws : List Word) (t : Option String) :
    convert_word_segments_to_audio_segments (ws.map (setWType t)) =
      convert_word_segments_to_audio_segments ws := by
  unfold convert_word_segments_to_audio_segments
  rw [isEmpty_map_setWType]
  by_cases he : ws.isEmpty = true
  · rw [if_pos he, if_pos he]
  · rw [if_neg he, if_neg he, wordGroups_map_setWType, mapM_except_map]
    have hfun : (fun g => mkSegment (List.map (setWType t) g)) = mkSegment := by
      funext g
      exact mkSegment_map_setWType t g
    rw [hfun]

/-- C10: the token a word item contributes is its text field when
present (shadowing any content field), else its content field, else the
empty string, and the transcript of every successfully emitted segment
is the space-join of exactly these tokens. -/
theorem claim_C10_token_precedence :
    (∀ (w : Word) (s : String),
        tokenOf (Word.mk w.wtype (some s) w.content w.start_time w.end_time w.confidence) = s) ∧
    (∀ w : Word, w.text = none → tokenOf w = w.content.getD "") ∧
    (∀ (g : List Word) (seg : AudioSegment), mkSegment g = Except.ok seg →
        seg.transcript = String.intercalate " " (g.map tokenOf)) := by
  refine ⟨fun w s => rfl, fun w h => ?_, mkSegment_ok_transcript⟩
  unfold tokenOf
  rw [h]
  rfl

theorem claim_C10_witness :
    (AudioSegment.mk 0 0 "hi" "hi" 1).transcript =
      String.intercalate " " ([exWordHi].map tokenOf) :=
  claim_C10_token_precedence.2.2 [exWordHi] (AudioSegment.mk 0 0 "hi" "hi" 1)
    (by simp [mkSegment, pyFloat, exWordHi, tokenOf, String.intercalate,
              String.intercalate.go, List.mapM, List.mapM.loop, Except.instMonad,
              Except.bind, Except.pure])

/-! ### Character-flow lemmas for the sanitization pipeline -/

theorem replaceRunsAux_mem (p : Char → Bool) (rep : List Char) (s : List Char) :
    ∀ flag, ∀ c ∈ replaceRunsAux p rep flag s, c ∈ rep ∨ (p c = false ∧ c ∈ s) := by
  induction s with
  | nil => intro flag c hc; simp [replaceRunsAux] at hc
  | cons a as ih =>
      intro flag c hc
      rw [replaceRunsAux] at hc
      by_cases hp : p a = true
      · rw [if_pos hp] at hc
        rcases List.mem_append.mp hc with hc | hc
        · left
          by_cases hf : flag
          · rw [if_pos hf] at hc; simp at hc
          · rwa [if_neg hf] at hc
        · rcases ih true c hc with h | ⟨h1, h2⟩
          · exact Or.inl h
          · exact Or.inr ⟨h1, List.mem_cons_of_mem a h2⟩
      · rw [if_neg hp] at hc
        rcases List.mem_cons.mp hc with heq | hc
        · rw [heq]
          exact Or.inr ⟨Bool.of_not_eq_true hp, List.mem_cons_self a as⟩
        · rcases ih false c hc with h | ⟨h1, h2⟩
          · exact Or.inl h
          · exact Or.inr ⟨h1, List.mem_cons_of_mem a h2⟩

theorem subTimeSpace_mem (s : List Char) :
    ∀ b1 b2, ∀ c ∈ subTimeSpace b1 b2 s, c ∈ s := by
  induction s with
  | nil => intro b1 b2 c hc; simp [subTimeSpace] at hc
  | cons a as ih =>
      intro b1 b2 c hc
      rw [subTimeSpace] at hc
      by_cases hp : isPySpace a = true
      · rw [if_pos hp] at hc
        rcases List.mem_append.mp hc with hc | hc
        · by_cases hd : (b2 || (b1 && wsRunThen ':' (a :: as))) = true
          · rw [if_pos hd] at hc; simp at hc
          · rw [if_neg hd] at hc
            rw [List.mem_singleton] at hc
            rw [hc]
            exact List.mem_cons_self a as
        · exact List.mem_cons_of_mem a (ih false _ c hc)
      · rw [if_neg hp] at hc
        rcases List.mem_cons.mp hc with heq | hc
        · rw [heq]; exact List.mem_cons_self a as
        · exact List.mem_cons_of_mem a (ih (isAsciiDigit a) false c hc)

theorem subApmSpace_mem (s : List Char) :
    ∀ b1 b2, ∀ c ∈ subApmSpace b1 b2 s, c ∈ s := by
  induction s with
  | nil => intro b1 b2 c hc; simp [subApmSpace] at hc
  | cons a as ih =>
      intro b1 b2 c hc
      rw [subApmSpace] at hc
      by_cases hp : isPySpace a = true
      · rw [if_pos hp] at hc
        rcases List.mem_append.mp hc with hc | hc
        · by_cases hd : (b2 || (b1 && wsRunThenMBoundary (a :: as))) = true
          · rw [if_pos hd] at hc; simp at hc
          · rw [if_neg hd] at hc
            rw [List.mem_singleton] at hc
            rw [hc]
            exact List.mem_cons_self a as
        · exact List.mem_cons_of_mem a (ih false _ c hc)
      · rw [if_neg hp] at hc
        rcases List.mem_cons.mp hc with heq | hc
        · rw [heq]; exact List.mem_cons_self a as
        · exact List.mem_cons_of_mem a (ih (a = 'A' || a = 'P') false c hc)

theorem subAround_mem (t : Char) (rep : List Char) (s : List Char) :
    ∀ flag, ∀ c ∈ subAround t rep flag s, c ∈ rep ∨ c ∈ s := by
  induction s with
  | nil => intro flag c hc; simp [subAround] at hc
  | cons a as ih =>
      intro flag c hc
      rw [subAround] at hc
      by_cases ht : a = t
      · rw [if_pos ht] at hc
        rcases List.mem_append.mp hc with hc | hc
        · exact Or.inl hc
        · rcases ih true c hc with h | h
          · exact Or.inl h
          · exact Or.inr (List.mem_cons_of_mem a h)
      · rw [if_neg ht] at hc
        by_cases hp : isPySpace a = true
        · rw [if_pos hp] at hc
          by_cases hf : flag
          · rw [if_pos hf] at hc
            rcases ih true c hc with h | h
            · exact Or.inl h
            · exact Or.inr (List.mem_cons_of_mem a h)
          · rw [if_neg hf] at hc
            by_cases hw : wsRunThen t (a :: as) = true
            · rw [if_pos hw] at hc
              rcases ih false c hc with h | h
              · exact Or.inl h
              · exact Or.inr (List.mem_cons_of_mem a h)
            · rw [if_neg hw] at hc
              rcases List.mem_cons.mp hc with heq | hc
              · rw [heq]; exact Or.inr (List.mem_cons_self a as)
              · rcases ih false c hc with h | h
                · exact Or.inl h
                · exact Or.inr (List.mem_cons_of_mem a h)
        · rw [if_neg hp] at hc
          rcases List.mem_cons.mp hc with heq | hc
          · rw [heq]; exact Or.inr (List.mem_cons_self a as)
          · rcases ih false c hc with h | h
            · exact Or.inl h
            · exact Or.inr (List.mem_cons_of_mem a h)

theorem stripChars_mem (s : List Char) : ∀ c ∈ stripChars s, c ∈ s := by
  intro c hc
  unfold stripChars at hc
  rw [List.mem_reverse] at hc
  have h1 := (List.dropWhile_suffix isPySpace).subset hc
  rw [List.mem_reverse] at h1
  exact (List.dropWhile_suffix isPySpace).subset h1

theorem subTIMECOLON_mem (s : List Char) : ∀ c ∈ subTIMECOLON s, c = ':' ∨ c ∈ s := by
  induction s using subTIMECOLON.induct with
  | case1 rest ih =>
      intro c hc
      rw [subTIMECOLON.eq_1] at hc
      rcases List.mem_cons.mp hc with heq | hc
      · exact Or.inl heq
      · rcases ih c hc with h | h
        · exact Or.inl h
        · right
          simp only [List.mem_cons]
          exact Or.inr (Or.inr (Or.inr (Or.inr (Or.inr (Or.inr (Or.inr (Or.inr (Or.inr h))))))))
  | case2 c0 cs hne ih =>
      intro c hc
      rw [subTIMECOLON.eq_2 c0 cs hne] at hc
      rcases List.mem_cons.mp hc with heq | hc
      · right; rw [heq]; exact List.mem_cons_self c0 cs
      · rcases ih c hc with h | h
        · exact Or.inl h
        · exact Or.inr (List.mem_cons_of_mem c0 h)
  | case3 =>
      intro c hc
      rw [subTIMECOLON.eq_3] at hc
      simp at hc

theorem subSLASH_mem (s : List Char) : ∀ c ∈ subSLASH s, c = '/' ∨ c ∈ s := by
  induction s using subSLASH.induct with
  | case1 rest ih =>
      intro c hc
      rw [subSLASH.eq_1] at hc
      rcases List.mem_cons.mp hc with heq | hc
      · exact Or.inl heq
      · rcases ih c hc with h | h
        · exact Or.inl h
        · right
          simp only [List.mem_cons]
          exact Or.inr (Or.inr (Or.inr (Or.inr (Or.inr h))))
  | case2 c0 cs hne ih =>
      intro c hc
      rw [subSLASH.eq_2 c0 cs hne] at hc
      rcases List.mem_cons.mp hc with heq | hc
      · right; rw [heq]; exact List.mem_cons_self c0 cs
      · rcases ih c hc with h | h
        · exact Or.inl h
        · exact Or.inr (List.mem_cons_of_mem c0 h)
  | case3 =>
      intro c hc
      rw [subSLASH.eq_3] at hc
      simp at hc

theorem subAMPERSAND_mem (s : List Char) : ∀ c ∈ subAMPERSAND s, c = '&' ∨ c ∈ s := by
  induction s using subAMPERSAND.induct with
  | case1 rest ih =>
      intro c hc
      rw [subAMPERSAND.eq_1] at hc
      rcases List.mem_cons.mp hc with heq | hc
      · exact Or.inl heq
      · rcases ih c hc with h | h
        · exact Or.inl h
        · right
          simp only [List.mem_cons]
          exact Or.inr (Or.inr (Or.inr (Or.inr (Or.inr (Or.inr (Or.inr (Or.inr (Or.inr h))))))))
  | case2 c0 cs hne ih =>
      intro c hc
      rw [subAMPERSAND.eq_2 c0 cs hne] at hc
      rcases List.mem_cons.mp hc with heq | hc
      · right; rw [heq]; exact List.mem_cons_self c0 cs
      · rcases ih c hc with h | h
        · exact Or.inl h
        · exact Or.inr (List.mem_cons_of_mem c0 h)
  | case3 =>
      intro c hc
      rw [subAMPERSAND.eq_3] at hc
      simp at hc

/-! ### From the allowed class to the final character set -/

theorem finalCharOK_of_allowed_not_space (c : Char) (h1 : inAllowedClass c = true)
    (h2 : isPySpace c = false) : finalCharOK c = true := by
  rw [inAllowedClass, Bool.or_eq_true, Bool.or_eq_true] at h1
  rcases h1 with (hw | hs) | hp
  · simp [finalCharOK, hw]
  · rw [h2] at hs
    exact absurd hs (by simp)
  · have hp' := List.mem_of_elem_eq_true hp
    simp [finalCharOK, hp']

theorem finalCharOK_exclusions (c : Char) (h : finalCharOK c = true) :
    31 < c.toNat ∧ c.toNat ≠ 127 ∧ c ≠ '<' ∧ c ≠ '>' := by
  rw [finalCharOK, Bool.or_eq_true, Bool.or_eq_true] at h
  rcases h with (hw | hsp) | hp
  · rw [isPyWordChar, Bool.or_eq_true, Bool.or_eq_true] at hw
    rcases hw with (ha | hd) | hu
    · rw [isAsciiAlpha, Bool.or_eq_true, Bool.and_eq_true, Bool.and_eq_true] at ha
      simp only [decide_eq_true_eq] at ha
      rcases ha with ⟨ha1, ha2⟩ | ⟨ha1, ha2⟩ <;>
        exact ⟨by omega, by omega,
          fun he => by rw [he] at ha1 ha2; revert ha1 ha2; decide,
          fun he => by rw [he] at ha1 ha2; revert ha1 ha2; decide⟩
    · rw [isAsciiDigit, Bool.and_eq_true] at hd
      simp only [decide_eq_true_eq] at hd
      obtain ⟨hd1, hd2⟩ := hd
      exact ⟨by omega, by omega,
        fun he => by rw [he] at hd1 hd2; revert hd1 hd2; decide,
        fun he => by rw [he] at hd1 hd2; revert hd1 hd2; decide⟩
    · simp only [decide_eq_true_eq] at hu
      rw [hu]; decide
  · simp only [decide_eq_true_eq] at hsp
    rw [hsp]; decide
  · have hp' : c ∈ allowedPunct := List.mem_of_elem_eq_true hp
    simp only [allowedPunct, List.mem_cons, List.not_mem_nil, or_false] at hp'
    rcases hp' with h | h | h | h | h | h | h | h | h | h | h | h | h <;> (rw [h]; decide)

theorem truncLong_mem (s : List Char) : ∀ c ∈ truncLong s, c ∈ s ∨ c = '.' := by
  intro c hc
  unfold truncLong at hc
  by_cases h : 256 < s.length
  · rw [if_pos h] at hc
    rcases List.mem_append.mp hc with hc | hc
    · exact Or.inl (List.take_subset 253 s hc)
    · right; simpa using hc
  · rw [if_neg h] at hc
    exact Or.inl hc

/-! ### The invariant of a fully sanitized value -/

theorem replaceRuns_mem (p : Char → Bool) (rep : List Char) (s : List Char) :
    ∀ c ∈ replaceRuns p rep s, c ∈ rep ∨ (p c = false ∧ c ∈ s) :=
  replaceRunsAux_mem p rep s false

theorem sanitizeValue_staged (v : List Char) :
    sanitizeValue v = stripChars (preStripped v) := rfl

theorem sanitizeValue_chars (v : List Char) : ∀ c ∈ sanitizeValue v, finalCharOK c = true := by
  intro c hc
  rw [sanitizeValue_staged] at hc
  have h17 := stripChars_mem (preStripped v) c hc
  rcases replaceRuns_mem isPySpace [' '] (preSpaceCollapse v) c h17 with hrep | ⟨hsp, h16⟩
  · rw [List.mem_singleton] at hrep
    rw [hrep]; decide
  · rcases subAround_mem '/' ['/'] _ false c h16 with hrep | h15
    · rw [List.mem_singleton] at hrep
      rw [hrep]; decide
    · rcases subAround_mem '&' [' ', '&', ' '] _ false c h15 with hrep | h14
      · simp only [List.mem_cons, List.not_mem_nil, or_false] at hrep
        rcases hrep with h | h | h <;> (rw [h]; decide)
      · have h13 := subApmSpace_mem _ false false c h14
        have h12 := subTimeSpace_mem _ false false c h13
        rcases subAMPERSAND_mem _ c h12 with heq | h11
        · rw [heq]; decide
        · rcases subSLASH_mem _ c h11 with heq | h10
          · rw [heq]; decide
          · rcases subTIMECOLON_mem _ c h10 with heq | h9
            · rw [heq]; decide
            · rcases replaceRuns_mem (fun c => !inAllowedClass c) [' '] _ c h9 with
                hrep | ⟨hcls, _⟩
              · rw [List.mem_singleton] at hrep
                rw [hrep]; decide
              · have hcls' : inAllowedClass c = true := by
                  simpa using hcls
                exact finalCharOK_of_allowed_not_space c hcls' hsp

/-! ### Claim theorems about the metadata sanitizer -/

/-- C5: the sentinel scheme collides with user input - an allow-listed
value consisting of the literal substring TIMECOLON is converted to a
colon by the restore pass, so sanitize_metadata maps the title value
TIMECOLON to the single character colon. -/
theorem claim_C5_sentinel_collision :
    sanitize_metadata [("title", "TIMECOLON".data)] = [("title", [':'])] ∧
    sanitize_metadata [("title", "SLASH".data)] = [("title", ['/'])] ∧
    sanitize_metadata [("title", "AMPERSAND".data)] = [("title", ['&'])] := by
  refine ⟨by decide, by decide, by decide⟩

/-- C6: letter-adjacent slashes and the standalone ampersand of the
track value survive the whole ordered pipeline unchanged. -/
theorem claim_C6_track_preserved :
    sanitize_metadata [("track", "AI/ML & Cloud/DevOps".data)] =
      [("track", "AI/ML & Cloud/DevOps".data)] := by
  decide

set_option maxRecDepth 10000 in
/-- C7: a title of 300 letters is truncated to exactly 256 characters
ending in three dots, and in general any sanitized value longer than 256
characters is cut to its first 253 characters with three dots appended. -/
theorem claim_C7_truncation :
    sanitize_metadata [("title", List.replicate 300 'a')] =
      [("title", List.replicate 253 'a' ++ ['.', '.', '.'])] ∧
    (List.replicate 253 'a' ++ ['.', '.', '.']).length = 256 ∧
    ∀ v : List Char, 256 < (sanitizeValue v).length →
      sanitize_metadata [("title", v)] =
        [("title", (sanitizeValue v).take 253 ++ ['.', '.', '.'])] := by
  refine ⟨by decide, by decide, ?_⟩
  intro v hv
  have htr : truncLong (sanitizeValue v) = (sanitizeValue v).take 253 ++ ['.', '.', '.'] := by
    unfold truncLong
    rw [if_pos hv]
  have hne : ¬ ((sanitizeValue v).take 253 ++ ['.', '.', '.']).isEmpty = true := by
    simp [List.isEmpty_iff]
  unfold sanitize_metadata
  rw [if_neg (by simp)]
  rw [List.filterMap_cons, List.filterMap_nil]
  dsimp only
  have hkey : allowed_keys.contains "title" = true := by decide
  rw [if_pos hkey, htr, if_neg hne]

set_option maxRecDepth 10000 in
theorem claim_C7_witness :
    sanitize_metadata [("title", List.replicate 300 'a')] =
      [("title", (sanitizeValue (List.replicate 300 'a')).take 253 ++ ['.', '.', '.'])] :=
  claim_C7_truncation.2.2 (List.replicate 300 'a') (by decide)

/-- Concrete fact used by the witness of the output invariant, proved
while the sanitizer is still reducible. -/
theorem sanitize_hi_mem :
    ("title", ['h', 'i']) ∈ sanitize_metadata [("title", ['h', 'i'])] := by decide

attribute [irreducible] sanitizeValue

/-- C9: every value returned by sanitize_metadata is non-empty and each
of its characters is a word character (letter, digit or underscore), the
space character, or one of the allowed punctuation marks; hence control
characters (code points at most 31 and 127) and the angle brackets never
occur in an output value. -/
theorem claim_C9_output_invariant (metadata : List (String × List Char)) :
    ∀ kv ∈ sanitize_metadata metadata,
      kv.2 ≠ [] ∧
      ∀ c ∈ kv.2,
        (isPyWordChar c = true ∨ c = ' ' ∨ c ∈ allowedPunct) ∧
        31 < c.toNat ∧ c.toNat ≠ 127 ∧ c ≠ '<' ∧ c ≠ '>' := by
  intro kv hkv
  unfold sanitize_metadata at hkv
  by_cases he : metadata.isEmpty = true
  · rw [if_pos he] at hkv
    simp at hkv
  · rw [if_neg he] at hkv
    obtain ⟨a, hmem, hsome⟩ := List.mem_filterMap.mp hkv
    by_cases hk : allowed_keys.contains a.1 = true
    · rw [if_pos hk] at hsome
      by_cases hemp : (truncLong (sanitizeValue a.2)).isEmpty = true
      · rw [if_pos hemp] at hsome
        exact absurd hsome (by simp)
      · rw [if_neg hemp] at hsome
        obtain ⟨k2, v2⟩ := kv
        have hv2 : v2 = truncLong (sanitizeValue a.2) :=
          (congrArg Prod.snd (Option.some.inj hsome)).symm
        refine ⟨?_, ?_⟩
        · intro hnil
          have hnil0 : v2 = [] := hnil
          rw [hv2] at hnil0
          exact hemp (by rw [hnil0]; rfl)
        · intro c hc
          have hc0 : c ∈ v2 := hc
          rw [hv2] at hc0
          rcases truncLong_mem (sanitizeValue a.2) c hc0 with hcs | hdot
          · have hfin := sanitizeValue_chars a.2 c hcs
            have hexc := finalCharOK_exclusions c hfin
            rw [finalCharOK, Bool.or_eq_true, Bool.or_eq_true] at hfin
            refine ⟨?_, hexc⟩
            rcases hfin with (hw | hsp) | hp
            · exact Or.inl hw
            · exact Or.inr (Or.inl (by simpa using hsp))
            · exact Or.inr (Or.inr (List.mem_of_elem_eq_true hp))
          · rw [hdot]
            exact ⟨Or.inr (Or.inr (by decide)), by decide, by decide, by decide, by decide⟩
    · rw [if_neg hk] at hsome
      exact absurd hsome (by simp)

theorem claim_C9_witness :
    ("title", ['h', 'i']).2 ≠ [] ∧
    ((isPyWordChar 'h' = true ∨ 'h' = ' ' ∨ 'h' ∈ allowedPunct) ∧
      31 < 'h'.toNat ∧ 'h'.toNat ≠ 127 ∧ 'h' ≠ '<' ∧ 'h' ≠ '>') := by
  have h := claim_C9_output_invariant [("title", ['h', 'i'])] ("title", ['h', 'i'])
    sanitize_hi_mem
  exact ⟨h.1, h.2 'h' (by decide)⟩

end VideoPipeline
